import Mathlib

/-!
# Verification of the environment cache resolver (`scripts/lib/setup_venv.py`)

This file gives a shallow embedding of the decision logic of
`scripts/lib/setup_venv.py`: requirement canonicalization
(`get_package_names`), the package index file (`create_requirements_index_file`
/ `get_venv_packages`), cache candidate selection and cloning
(`try_to_copy_venv`), the provenance log (`create_log_entry`,
`copy_parent_log`) and the provisioning orchestrator (`do_setup_virtualenv`,
`setup_virtualenv`).

Python strings are modelled as Lean `String` (a wrapper around `List Char`);
the Python string primitives used by the script (`split`, `in`, `startswith`,
`strip`, `lower`, `os.path` helpers) are re-implemented below with the same
semantics on the characters actually reachable here (the script only feeds
them ASCII text).  Filesystem contents are passed explicitly: a cache entry
carries the contents of its `package_index` and `setup-venv.log` files (or
`none` when the file is absent) and the presence bit of its `success-stamp`;
external processes (`virtualenv-clone`, `pip install`) are oracles.
-/

namespace VenvResolver

instance {ε α : Type} [DecidableEq ε] [DecidableEq α] : DecidableEq (Except ε α) := fun x y =>
  match x, y with
  | .ok a, .ok b =>
    if h : a = b then isTrue (by rw [h]) else isFalse (by intro he; cases he; exact h rfl)
  | .ok _, .error _ => isFalse (by intro h; cases h)
  | .error _, .ok _ => isFalse (by intro h; cases h)
  | .error e, .error f =>
    if h : e = f then isTrue (by rw [h]) else isFalse (by intro he; cases he; exact h rfl)

/-! ## Python string primitives -/

/-- Lexicographic comparison of character lists by code point, the order
Python uses to compare `str` values. -/
def lexLe : List Char → List Char → Bool
  | [], _ => true
  | _ :: _, [] => false
  | a :: s, b :: t =>
    if a.toNat < b.toNat then true
    else if b.toNat < a.toNat then false
    else lexLe s t

/-- Python `s <= t` on strings. -/
def strLe (s t : String) : Prop := lexLe s.data t.data = true

instance : DecidableRel strLe := fun s t => by unfold strLe; infer_instance

theorem charToNat_inj {a b : Char} (h : a.toNat = b.toNat) : a = b :=
  Char.ext (UInt32.ext h)

theorem lexLe_nil (l : List Char) : lexLe [] l = true := by unfold lexLe; rfl

theorem lexLe_cons_nil (a : Char) (s : List Char) : lexLe (a :: s) [] = false := rfl

theorem lexLe_cons (a b : Char) (s t : List Char) :
    lexLe (a :: s) (b :: t) =
      if a.toNat < b.toNat then true
      else if b.toNat < a.toNat then false else lexLe s t := rfl

theorem lexLe_cons_iff {a b : Char} {s t : List Char} :
    lexLe (a :: s) (b :: t) = true ↔
      a.toNat < b.toNat ∨ (a.toNat = b.toNat ∧ lexLe s t = true) := by
  rw [lexLe_cons]
  rcases Nat.lt_trichotomy a.toNat b.toNat with h | h | h
  · rw [if_pos h]
    exact iff_of_true rfl (Or.inl h)
  · rw [if_neg (by omega), if_neg (by omega)]
    constructor
    · intro hst; exact Or.inr ⟨h, hst⟩
    · rintro (h' | ⟨-, hst⟩)
      · omega
      · exact hst
  · rw [if_neg (by omega), if_pos h]
    constructor
    · intro hf; cases hf
    · rintro (h' | ⟨h', -⟩) <;> omega

theorem lexLe_refl (l : List Char) : lexLe l l = true := by
  induction l with
  | nil => exact lexLe_nil []
  | cons a s ih => exact lexLe_cons_iff.mpr (Or.inr ⟨rfl, ih⟩)

theorem lexLe_trans : ∀ {l₁ l₂ l₃ : List Char},
    lexLe l₁ l₂ = true → lexLe l₂ l₃ = true → lexLe l₁ l₃ = true
  | [], _, l₃, _, _ => lexLe_nil l₃
  | a :: s, [], _, h₁, _ => absurd h₁ (by simp [lexLe_cons_nil])
  | _ :: _, _ :: _, [], _, h₂ => absurd h₂ (by simp [lexLe_cons_nil])
  | a :: s, b :: t, c :: u, h₁, h₂ => by
    rcases lexLe_cons_iff.mp h₁ with h | ⟨hab, hst⟩ <;>
      rcases lexLe_cons_iff.mp h₂ with h' | ⟨hbc, htu⟩ <;>
      refine lexLe_cons_iff.mpr ?_
    · exact Or.inl (by omega)
    · exact Or.inl (by omega)
    · exact Or.inl (by omega)
    · exact Or.inr ⟨by omega, lexLe_trans hst htu⟩

theorem lexLe_antisymm : ∀ {l₁ l₂ : List Char},
    lexLe l₁ l₂ = true → lexLe l₂ l₁ = true → l₁ = l₂
  | [], [], _, _ => rfl
  | [], _ :: _, _, h₂ => absurd h₂ (by simp [lexLe_cons_nil])
  | _ :: _, [], h₁, _ => absurd h₁ (by simp [lexLe_cons_nil])
  | a :: s, b :: t, h₁, h₂ => by
    rcases lexLe_cons_iff.mp h₁ with h | ⟨hab, hst⟩ <;>
      rcases lexLe_cons_iff.mp h₂ with h' | ⟨hba, hts⟩
    · omega
    · omega
    · omega
    · rw [charToNat_inj hab, lexLe_antisymm hst hts]

theorem lexLe_total : ∀ (l₁ l₂ : List Char), lexLe l₁ l₂ = true ∨ lexLe l₂ l₁ = true
  | [], l₂ => Or.inl (lexLe_nil l₂)
  | a :: s, [] => Or.inr (lexLe_nil (a :: s))
  | a :: s, b :: t => by
    rcases Nat.lt_trichotomy a.toNat b.toNat with h | h | h
    · exact Or.inl (lexLe_cons_iff.mpr (Or.inl h))
    · rcases lexLe_total s t with hst | hts
      · exact Or.inl (lexLe_cons_iff.mpr (Or.inr ⟨h, hst⟩))
      · exact Or.inr (lexLe_cons_iff.mpr (Or.inr ⟨h.symm, hts⟩))
    · exact Or.inr (lexLe_cons_iff.mpr (Or.inl h))

instance : IsRefl String strLe := ⟨fun s => lexLe_refl s.data⟩

instance : IsTrans String strLe := ⟨fun _ _ _ h₁ h₂ => lexLe_trans h₁ h₂⟩

instance : IsAntisymm String strLe := ⟨fun _ _ h₁ h₂ => String.ext (lexLe_antisymm h₁ h₂)⟩

instance : IsTotal String strLe := ⟨fun s t => lexLe_total s.data t.data⟩

/-- First occurrence of `sep` in a character list: `some (pre, post)` when the
list is `pre ++ sep ++ post` with `pre` shortest, `none` when `sep` does not
occur.  This is the primitive behind Python's `in` and `split`. -/
def findSplit (sep : List Char) : List Char → Option (List Char × List Char)
  | [] => none
  | c :: rest =>
    if sep.isPrefixOf (c :: rest) then some ([], (c :: rest).drop sep.length)
    else
      match findSplit sep rest with
      | none => none
      | some (pre, post) => some (c :: pre, post)

/-- Fuel-driven repeated splitting; the fuel is set to an amount that can
never run out (each found occurrence consumes at least one character). -/
def splitOnCharsAux (sep : List Char) : Nat → List Char → List (List Char)
  | 0, s => [s]
  | fuel + 1, s =>
    match findSplit sep s with
    | none => [s]
    | some (pre, post) => pre :: splitOnCharsAux sep fuel post

/-- Python `s.split(sep)` for a non-empty separator, on character lists. -/
def splitOnChars (sep s : List Char) : List (List Char) :=
  if sep.isEmpty then [s] else splitOnCharsAux sep (s.length + 1) s

/-- Python `s.split(sep)`. -/
def pySplit (s sep : String) : List String :=
  (splitOnChars sep.data s.data).map (fun l => (⟨l⟩ : String))

/-- Python `sub in s` (for the non-empty needles used by the script). -/
def pyContains (s sub : String) : Bool := (findSplit sub.data s.data).isSome

/-- Python `s.startswith(p)`. -/
def pyStartsWith (s p : String) : Bool := p.data.isPrefixOf s.data

/-- Python's whitespace test for `str.strip`, restricted to the ASCII
whitespace characters. -/
def pyIsSpace (c : Char) : Bool :=
  c == ' ' || c == '\t' || c == '\n' || c == '\r' || c == '\x0b' || c == '\x0c'

/-- Python `s.strip()` on character lists. -/
def pyStripL (l : List Char) : List Char :=
  ((l.dropWhile pyIsSpace).reverse.dropWhile pyIsSpace).reverse

/-- Python `s.strip()`. -/
def pyStrip (s : String) : String := ⟨pyStripL s.data⟩

/-- ASCII lowercasing of one character; Python's `str.lower` restricted to
the ASCII range the script operates on. -/
def asciiLower (c : Char) : Char :=
  if 65 ≤ c.toNat ∧ c.toNat ≤ 90 then Char.ofNat (c.toNat + 32) else c

/-- Python `s.lower()`. -/
def pyLower (s : String) : String := ⟨s.data.map asciiLower⟩

/-- `os.path.basename` for the slash-separated paths built by the script. -/
def pyBasename (p : String) : String := ⟨(splitOnChars ['/'] p.data).getLastD []⟩

/-- `os.path.dirname` for the slash-separated, slash-normalized paths built
by the script. -/
def pyDirname (p : String) : String :=
  ⟨List.intercalate ['/'] ((splitOnChars ['/'] p.data).dropLast)⟩

/-! ## Spec canonicalizer (`get_package_names`)

`get_package_names(requirements_file)` first expands the requirements file
into a list of entries via `expand_reqs` (an external helper outside this
module); the embedding therefore takes the expanded entry list as input and
models the per-entry processing loop of lines 125-145. -/

/-- The version operators of line 128, in the order the loop applies them. -/
def operators : List String := ["~=", "==", "!=", "<", ">"]

/-- One step of the operator loop (lines 137-139): Python's
`package.split(operator)[0]` when `operator in package`, otherwise the entry
unchanged.  (When the operator does not occur, `split` returns the whole
string as its only part, so the occurrence test is absorbed into
`findSplit`.) -/
def truncOp (s : String) (op : String) : String :=
  match findSplit op.data s.data with
  | some (pre, _) => ⟨pre⟩
  | none => s

/-- The whole operator loop of lines 137-139. -/
def stripOperators (s : String) : String := operators.foldl truncOp s

/-- Lines 141-143: strip whitespace, discard if empty, lowercase. -/
def finishEntry (p : String) : Option String :=
  let q := pyStrip (stripOperators p)
  if q = "" then none else some (pyLower q)

/-- Lines 130-135: for `git+https://` entries containing `#egg=`, replace the
entry by the text after `#egg=`; raise when the split does not yield exactly
two parts (duplicate `#egg=`). -/
def eggExtract (package : String) : Except String String :=
  if pyStartsWith package "git+https://" && pyContains package "#egg=" then
    match pySplit package "#egg=" with
    | [_, egg] => .ok egg
    | _ => .error ("Unexpected duplicate #egg in package " ++ package)
  else .ok package

/-- Canonicalization of a single entry of the loop body (lines 129-143);
`none` means the entry was discarded as blank. -/
def processEntry (package : String) : Except String (Option String) :=
  (eggExtract package).map finishEntry

/-- Error-propagating map: the loop raises at the first malformed entry. -/
def mapExcept (f : α → Except ε β) : List α → Except ε (List β)
  | [] => .ok []
  | a :: l =>
    match f a with
    | .error e => .error e
    | .ok b =>
      match mapExcept f l with
      | .error e => .error e
      | .ok bs => .ok (b :: bs)

/-- `get_package_names` (lines 125-145) on the expanded entry list: process
every entry, drop blanks, return the cleaned names sorted (Python's
`sorted(cleaned)`). -/
def get_package_names (entries : List String) : Except String (List String) :=
  match mapExcept processEntry entries with
  | .error e => .error e
  | .ok opts => .ok (List.insertionSort strLe (opts.filterMap id))

/-! ## Package index (`create_requirements_index_file`, `get_venv_packages`) -/

/-- `get_index_filename` (line 122). -/
def get_index_filename (venv_path : String) : String := venv_path ++ "/package_index"

/-- The text `create_requirements_index_file` (lines 147-160) writes to the
`package_index` file for a given cleaned package list:
`'\n'.join(packages)` followed by a final newline. -/
def create_requirements_index_content (packages : List String) : String :=
  ⟨List.intercalate ['\n'] (packages.map String.data) ++ ['\n']⟩

/-- `get_venv_packages` (lines 162-168) applied to the contents of the
`package_index` file: split on newlines, strip each line, keep the non-blank
ones, as a set. -/
def get_venv_packages (content : String) : Finset String :=
  (((splitOnChars ['\n'] content.data).map (fun l => (⟨pyStripL l⟩ : String))).filter
    (fun p => p ≠ "")).toFinset

/-! ## Provenance log (`create_log_entry`, `copy_parent_log`) -/

/-- `get_logfile_name` (lines 243-244). -/
def get_logfile_name (venv_path : String) : String := venv_path ++ "/setup-venv.log"

/-- The sorted package bullet list (`"\n".join('- {}'.format(p) for p in
sorted(packages))`). -/
def bulletLines (l : List String) : String :=
  ⟨List.intercalate ['\n'] (l.map (fun p => ("- " ++ p).data))⟩

/-- A `Finset` of package names in Python's sorted order (ascending, by code
point), as `sorted(packages)` produces from a `set`. -/
def sortedPackages (s : Finset String) : List String :=
  Quot.liftOn s.val (List.insertionSort strLe) (fun l₁ l₂ h =>
    List.eq_of_perm_of_sorted
      ((List.perm_insertionSort strLe l₁).trans
        (h.trans (List.perm_insertionSort strLe l₂).symm))
      (List.sorted_insertionSort strLe l₁) (List.sorted_insertionSort strLe l₂))

/-- The block of text one `create_log_entry` call (lines 246-261) appends to
the log: the venv path (the log file's directory), the `Copied from`
section when any package was copied, and the `New packages` section. -/
def logBlock (target_log parent : String) (copied new_packages : Finset String) : String :=
  pyDirname target_log ++ "\n" ++
    (if copied = ∅ then "" else
      "Copied from " ++ parent ++ ":\n" ++ bulletLines (sortedPackages copied) ++ "\n") ++
    "New packages:\n" ++ bulletLines (sortedPackages new_packages) ++ "\n\n"

/-- `create_log_entry` as a transformation of the log file's contents: the
file is opened in append mode (`'a'`), so the new block is appended to the
current contents (`""` for a file that does not exist yet). -/
def create_log_entry (cur : String) (target_log parent : String)
    (copied new_packages : Finset String) : String :=
  cur ++ logBlock target_log parent copied new_packages

/-- `copy_parent_log` (lines 263-265) as a transformation of the target log
file's contents: when the source log exists its contents replace the target
(`shutil.copyfile`), otherwise the target is left alone. -/
def copy_parent_log (source_log : Option String) (target_log : Option String) : Option String :=
  match source_log with
  | some s => some s
  | none => target_log

/-- `N` successive `create_log_entry` calls (each appending to the file), on
a log whose initial contents are `init`; each request carries the call's
`(target_log, parent, copied_packages, new_packages)` arguments. -/
def appendLogEntries (init : String)
    (es : List (String × String × Finset String × Finset String)) : String :=
  es.foldl (fun acc e => create_log_entry acc e.1 e.2.1 e.2.2.1 e.2.2.2) init

/-- The blocks such a sequence of calls writes, in order. -/
def concatBlocks : List (String × String × Finset String × Finset String) → String
  | [] => ""
  | e :: es => logBlock e.1 e.2.1 e.2.2.1 e.2.2.2 ++ concatBlocks es

/-! ## Cache state and candidate selection (`try_to_copy_venv`) -/

/-- Line 11. -/
def VENV_CACHE_PATH : String := "/srv/zulip-venv-cache"

/-- One subdirectory of the venv cache as `try_to_copy_venv` observes it:
its name (a requirements hash), and the state of the candidate environment
inside it — the contents of its `package_index` and `setup-venv.log` files
(`none` when the file is absent) and whether its `success-stamp` exists. -/
structure CacheEntry where
  sha1sum : String
  indexContent : Option String
  logContent : Option String
  successStamp : Bool
deriving DecidableEq

/-- `os.path.join(VENV_CACHE_PATH, sha1sum, venv_name)` (line 190). -/
def entryPath (venv_name : String) (e : CacheEntry) : String :=
  VENV_CACHE_PATH ++ "/" ++ e.sha1sum ++ "/" ++ venv_name

/-- Line 198's eligibility test: `not (old_packages - new_packages)`. -/
def isEligible (old new : Finset String) : Bool := decide (old \ new = ∅)

/-- One iteration of the loop of lines 189-200: skip the candidate when it is
the target itself or lacks a package index; otherwise read its packages and,
when they are all wanted, contribute the tuple
`(len(overlap), curr_venv_path, overlap)`. -/
def overlapOf (venv_path venv_name : String) (new_packages : Finset String)
    (e : CacheEntry) : Option (Nat × String × Finset String) :=
  match e.indexContent with
  | none => none
  | some content =>
    if entryPath venv_name e = venv_path then none
    else
      let old_packages := get_venv_packages content
      if isEligible old_packages new_packages then
        some ((new_packages ∩ old_packages).card, entryPath venv_name e,
          new_packages ∩ old_packages)
      else none

/-- The `overlaps` list built by the loop of lines 189-200. -/
def eligibleOverlaps (venv_path venv_name : String) (new_packages : Finset String)
    (cache : List CacheEntry) : List (Nat × String × Finset String) :=
  cache.filterMap (overlapOf venv_path venv_name new_packages)

/-- The ordering `sorted(overlaps)` uses on the tuples.  Python compares the
tuples lexicographically; the third component (a set, for which Python only
has a partial subset order) is never consulted because candidate paths within
one scan are pairwise distinct, so the embedding orders by the first two
components. -/
def overlapLe (a b : Nat × String × Finset String) : Prop :=
  a.1 < b.1 ∨ (a.1 = b.1 ∧ strLe a.2.1 b.2.1)

instance : DecidableRel overlapLe := fun a b => by unfold overlapLe; infer_instance

/-- Lines 204-207: sort the overlaps and take the last, i.e. the selected
`(len(overlap), source_venv_path, copied_packages)`, or `none` when no
eligible candidate exists. -/
def select_best (venv_path venv_name : String) (new_packages : Finset String)
    (cache : List CacheEntry) : Option (Nat × String × Finset String) :=
  (List.insertionSort overlapLe (eligibleOverlaps venv_path venv_name new_packages cache)).getLast?

/-- The log contents of the cache candidate at path `p` (used to model
reading `get_logfile_name(source_venv_path)`). -/
def logAtPath (venv_name : String) (cache : List CacheEntry) (p : String) : Option String :=
  match cache.find? (fun e => entryPath venv_name e == p) with
  | some e => e.logContent
  | none => none

/-- `try_to_copy_venv` (lines 170-241).  `cloneOk` is the outcome of the
external `virtualenv-clone` invocation (line 216): `false` when the tool is
missing or exits non-zero, in which case the function logs a warning and
returns `False`.  On success the result carries the selected source path,
the copied package set, and the contents of the target's `setup-venv.log`:
the clone replicates the source tree (including its log), `rm -f` removes the
copied `success-stamp`, `copy_parent_log` overwrites the target log with the
source's log when the source has one, and `create_log_entry` appends the new
lineage block. -/
def try_to_copy_venv (venv_path venv_name : String) (new_packages : Finset String)
    (cache : List CacheEntry) (cloneOk : Bool) : Option (String × Finset String × String) :=
  match select_best venv_path venv_name new_packages cache with
  | none => none
  | some (_, source_venv_path, copied_packages) =>
    if cloneOk then
      let source_log := logAtPath venv_name cache source_venv_path
      let target_after_clone := source_log
      let target_after_copy := copy_parent_log source_log target_after_clone
      some (source_venv_path, copied_packages,
        create_log_entry (target_after_copy.getD "") (get_logfile_name venv_path)
          source_venv_path copied_packages (new_packages \ copied_packages))
    else none

/-! ## Provisioning orchestrator (`do_setup_virtualenv`, `setup_virtualenv`) -/

/-- The observable result of a `do_setup_virtualenv` run that reached the end
of the function. -/
structure SetupOutcome where
  /-- `some source` when the environment was cloned from a cache candidate. -/
  copiedFrom : Option String
  /-- The overlap set inherited from the clone source (`∅` for a fresh env). -/
  copiedPackages : Finset String
  /-- Whether the fresh-creation branch (`mkdir` + `virtualenv`) ran. -/
  freshCreated : Bool
  /-- Final contents of the target's `setup-venv.log`. -/
  logContent : String
  /-- Contents written to the target's `package_index`. -/
  indexContent : String
  /-- How many times the installer was invoked (1 or 2). -/
  installAttempts : Nat
deriving DecidableEq

/-- The two exceptions `do_setup_virtualenv` can propagate: the canonicalizer's
duplicate-`#egg=` error, and a second installer failure after the one retry. -/
inductive SetupFailure
  | malformedEntry (msg : String)
  | installFailed (attempts : Nat)
deriving DecidableEq

/-- Lines 321-332 of `do_setup_virtualenv`: the requirement set is
`set(get_package_names(...))`; the stale environment is removed; cloning from
the cache is attempted (writing the clone-path log) and on `False` a fresh
environment is created (writing the fresh-path log with no parent); in either
case the package index is then written from the target requirement set. -/
def do_setup_core (venv_path : String) (pkgs : List String)
    (cache : List CacheEntry) (cloneOk : Bool) : SetupOutcome :=
  match try_to_copy_venv venv_path (pyBasename venv_path) pkgs.toFinset cache cloneOk with
  | some (src, copied, log) =>
    { copiedFrom := some src, copiedPackages := copied, freshCreated := false,
      logContent := log,
      indexContent := create_requirements_index_content pkgs, installAttempts := 0 }
  | none =>
    { copiedFrom := none, copiedPackages := ∅, freshCreated := true,
      logContent := create_log_entry "" (get_logfile_name venv_path) "" ∅ pkgs.toFinset,
      indexContent := create_requirements_index_content pkgs, installAttempts := 0 }

/-- `do_setup_virtualenv` (lines 318-348).  `install : Nat → Bool` is the
external installer oracle — `install n` is the exit status of the `n`-th
`install_venv_deps` invocation (lines 341-346 call it once and, after a
failure, exactly once more; a second failure propagates). -/
def do_setup_virtualenv (venv_path : String) (entries : List String)
    (cache : List CacheEntry) (cloneOk : Bool) (install : Nat → Bool) :
    Except SetupFailure SetupOutcome :=
  match get_package_names entries with
  | .error msg => .error (.malformedEntry msg)
  | .ok pkgs =>
    if install 0 then .ok { do_setup_core venv_path pkgs cache cloneOk with installAttempts := 1 }
    else if install 1 then
      .ok { do_setup_core venv_path pkgs cache cloneOk with installAttempts := 2 }
    else .error (.installFailed 2)

/-- The observable result of one `setup_virtualenv` run. -/
structure RunResult where
  /-- The completed setup work, `none` when short-circuited or aborted. -/
  performed : Option SetupOutcome
  /-- Whether the `success-stamp` exists after the run. -/
  stampAfter : Bool
  /-- The propagated exception when the run aborted. -/
  fatal : Option SetupFailure
deriving DecidableEq

/-- `setup_virtualenv` (lines 284-310) around `do_setup_virtualenv`:
`stampExists` is whether the `success-stamp` already exists at the cached
venv path (line 300); when it does, no work is done; otherwise the setup runs
and the stamp is written only after it returns without raising
(lines 301-303). -/
def setup_virtualenv (venv_path : String) (entries : List String)
    (cache : List CacheEntry) (stampExists : Bool) (cloneOk : Bool)
    (install : Nat → Bool) : RunResult :=
  if stampExists then { performed := none, stampAfter := true, fatal := none }
  else
    match do_setup_virtualenv venv_path entries cache cloneOk install with
    | .ok o => { performed := some o, stampAfter := true, fatal := none }
    | .error f => { performed := none, stampAfter := false, fatal := some f }

/-! ## Spec-side definition for the truncation claim

The specification describes operator truncation as cutting the entry at the
first occurrence of **any** version operator; the code instead applies the
operators one after another.  The following definition follows the spec's
words and is used only to compare the two behaviours. -/

/-- Modelled from the spec: "any version-operator substring truncates the
entry at its first occurrence — the package name is everything before it". -/
def specFirstOperatorTruncate (s : String) : String :=
  match (operators.filterMap
      (fun op => (findSplit op.data s.data).map (fun q => q.1.length))).min? with
  | some i => ⟨s.data.take i⟩
  | none => s

/-- Modelled from the spec: canonicalization of one (non-VCS) entry as the
spec words it — truncate at the first operator occurrence, trim, lowercase. -/
def specCanonicalizeEntry (s : String) : String :=
  pyLower (pyStrip (specFirstOperatorTruncate s))

/-! ## Concrete fixtures used by the closed corollaries -/

def wNew : Finset String := {"a", "b", "c", "d", "e"}

def wVenvPath : String := "/srv/zulip-venv-cache/self/venv"

/-- A concrete cache: an eligible candidate of overlap 3, two tied eligible
candidates of overlap 5, an ineligible candidate (contains `z`), a candidate
without an index, and the target itself.  The winning candidate `ccc` has no
success stamp. -/
def wCache : List CacheEntry :=
  [ ⟨"aaa", some "a\nb\nc\n", some "parent-log\n", true⟩,
    ⟨"bbb", some "a\nb\nc\nd\ne\n", none, false⟩,
    ⟨"ccc", some "b\na\nc\ne\nd\n", none, false⟩,
    ⟨"ddd", some "a\nz\n", none, true⟩,
    ⟨"eee", none, none, true⟩,
    ⟨"self", some "a\n", some "self-log\n", false⟩ ]

/-- `wCache` with every success stamp flipped and the log files changed. -/
def wCacheStamped : List CacheEntry :=
  [ ⟨"aaa", some "a\nb\nc\n", none, false⟩,
    ⟨"bbb", some "a\nb\nc\nd\ne\n", some "x\n", true⟩,
    ⟨"ccc", some "b\na\nc\ne\nd\n", none, true⟩,
    ⟨"ddd", some "a\nz\n", none, false⟩,
    ⟨"eee", none, some "y\n", false⟩,
    ⟨"self", some "a\n", none, true⟩ ]

/-- The log `try_to_copy_venv` writes when cloning `ccc` from `wCache`. -/
def wCloneLog : String :=
  "/srv/zulip-venv-cache/self/venv\nCopied from /srv/zulip-venv-cache/ccc/venv:\n- a\n- b\n- c\n- d\n- e\nNew packages:\n\n\n"

/-- Two concrete lineage-append requests. -/
def wEntriesLog : List (String × String × Finset String × Finset String) :=
  [ ("/x/venv/setup-venv.log", "", ∅, {"a"}),
    ("/x/venv/setup-venv.log", "/p", {"a"}, {"b"}) ]

/-! ## Theory of `findSplit`: first occurrence of a substring -/

theorem findSplit_nil (sep : List Char) : findSplit sep [] = none := rfl

theorem findSplit_sound {sep : List Char} :
    ∀ {s pre post : List Char}, findSplit sep s = some (pre, post) → s = pre ++ sep ++ post
  | [], _, _, h => by cases h
  | c :: rest, pre, post, h => by
    simp only [findSplit] at h
    by_cases hp : sep.isPrefixOf (c :: rest)
    · rw [if_pos hp] at h
      obtain ⟨t, ht⟩ := List.isPrefixOf_iff_prefix.mp hp
      injection h with h'
      injection h' with h₁ h₂
      subst h₁
      subst h₂
      rw [← ht, List.drop_left]
      simp
    · rw [if_neg hp] at h
      cases hfs : findSplit sep rest with
      | none => rw [hfs] at h; cases h
      | some x =>
        obtain ⟨pre', post'⟩ := x
        rw [hfs] at h
        injection h with h'
        injection h' with h₁ h₂
        subst h₁
        subst h₂
        have := findSplit_sound hfs
        subst this
        simp

theorem findSplit_none_before {sep : List Char} :
    ∀ {s pre post : List Char}, findSplit sep s = some (pre, post) → findSplit sep pre = none
  | [], _, _, h => by cases h
  | c :: rest, pre, post, h => by
    simp only [findSplit] at h
    by_cases hp : sep.isPrefixOf (c :: rest)
    · rw [if_pos hp] at h
      injection h with h'
      injection h' with h₁ _
      subst h₁
      rfl
    · rw [if_neg hp] at h
      cases hfs : findSplit sep rest with
      | none => rw [hfs] at h; cases h
      | some x =>
        obtain ⟨pre', post'⟩ := x
        rw [hfs] at h
        injection h with h'
        injection h' with h₁ _
        subst h₁
        have ih := findSplit_none_before hfs
        simp only [findSplit]
        have hp' : ¬ sep.isPrefixOf (c :: pre') = true := by
          intro hpp
          apply hp
          rw [List.isPrefixOf_iff_prefix] at hpp ⊢
          refine hpp.trans ⟨sep ++ post', ?_⟩
          have := findSplit_sound hfs
          subst this
          simp
        rw [if_neg hp', ih]

theorem findSplit_isSome_cons {sep : List Char} {c : Char} {rest : List Char}
    (h : (findSplit sep rest).isSome = true) :
    (findSplit sep (c :: rest)).isSome = true := by
  simp only [findSplit]
  by_cases hp : sep.isPrefixOf (c :: rest)
  · rw [if_pos hp]; rfl
  · rw [if_neg hp]
    obtain ⟨x, hx⟩ := Option.isSome_iff_exists.mp h
    obtain ⟨pre, post⟩ := x
    rw [hx]
    rfl

theorem findSplit_isSome_of_decomp {sep : List Char} (hsep : sep ≠ []) :
    ∀ (pre : List Char) {post s : List Char}, s = pre ++ sep ++ post →
      (findSplit sep s).isSome = true
  | [], post, s, h => by
    subst h
    cases sep with
    | nil => exact absurd rfl hsep
    | cons d sep' =>
      show (findSplit (d :: sep') (d :: (sep' ++ post))).isSome = true
      simp only [findSplit]
      rw [if_pos (List.isPrefixOf_iff_prefix.mpr ⟨post, by simp⟩)]
      rfl
  | c :: pre', post, s, h => by
    subst h
    exact findSplit_isSome_cons (findSplit_isSome_of_decomp hsep pre' rfl)

theorem findSplit_isSome_iff_decomp {sep s : List Char} (hsep : sep ≠ []) :
    (findSplit sep s).isSome = true ↔ ∃ pre post, s = pre ++ sep ++ post := by
  constructor
  · intro h
    obtain ⟨x, hx⟩ := Option.isSome_iff_exists.mp h
    obtain ⟨pre, post⟩ := x
    exact ⟨pre, post, findSplit_sound hx⟩
  · rintro ⟨pre, post, h⟩
    exact findSplit_isSome_of_decomp hsep pre h

theorem findSplit_mono_suffix {sep t s : List Char} (h : t <:+ s)
    (hocc : (findSplit sep t).isSome = true) : (findSplit sep s).isSome = true := by
  obtain ⟨u, rfl⟩ := h
  induction u with
  | nil => simpa using hocc
  | cons c u' ih => exact findSplit_isSome_cons ih

theorem findSplit_mono_pre {sep t s : List Char} (hsep : sep ≠ []) (h : t <+: s)
    (hocc : (findSplit sep t).isSome = true) : (findSplit sep s).isSome = true := by
  obtain ⟨pre, post, rfl⟩ := (findSplit_isSome_iff_decomp hsep).mp hocc
  obtain ⟨u, rfl⟩ := h
  exact (findSplit_isSome_iff_decomp hsep).mpr ⟨pre, post ++ u, by simp⟩

/-- Occurrences survive neither trimming can create them: the stripped list
is a prefix of a suffix of the original. -/
theorem pyStripL_within (l : List Char) : ∃ u, pyStripL l <+: u ∧ u <:+ l := by
  refine ⟨l.dropWhile pyIsSpace, ?_, List.dropWhile_suffix pyIsSpace⟩
  have h1 : (pyStripL l).reverse <:+ (l.dropWhile pyIsSpace).reverse := by
    show (((l.dropWhile pyIsSpace).reverse.dropWhile pyIsSpace).reverse).reverse <:+
      (l.dropWhile pyIsSpace).reverse
    rw [List.reverse_reverse]
    exact List.dropWhile_suffix pyIsSpace
  exact List.reverse_suffix.mp h1

/-! ## Round trip of the package index file -/

theorem splitOnCharsAux_nil_input (sep : List Char) (fuel : Nat) :
    splitOnCharsAux sep fuel [] = [[]] := by
  cases fuel <;> rfl

theorem findSplit_single {ch : Char} :
    ∀ {xs rest : List Char}, ch ∉ xs → findSplit [ch] (xs ++ ch :: rest) = some (xs, rest)
  | [], rest, _ => by
    show findSplit [ch] (ch :: rest) = some ([], rest)
    simp only [findSplit]
    rw [if_pos (List.isPrefixOf_iff_prefix.mpr ⟨rest, by simp⟩)]
    rfl
  | c :: xs, rest, h => by
    have hc : c ≠ ch := fun hh => h (by simp [hh])
    have hx : ch ∉ xs := fun hh => h (List.mem_cons_of_mem _ hh)
    show findSplit [ch] (c :: (xs ++ ch :: rest)) = some (c :: xs, rest)
    simp only [findSplit]
    rw [if_neg, findSplit_single hx]
    intro hp
    obtain ⟨t, ht⟩ := List.isPrefixOf_iff_prefix.mp hp
    injection ht with h₁ _
    exact hc h₁.symm

theorem findSplit_single_none {ch : Char} :
    ∀ {xs : List Char}, ch ∉ xs → findSplit [ch] xs = none
  | [], _ => rfl
  | c :: xs, h => by
    have hc : c ≠ ch := fun hh => h (by simp [hh])
    have hx : ch ∉ xs := fun hh => h (List.mem_cons_of_mem _ hh)
    simp only [findSplit]
    rw [if_neg, findSplit_single_none hx]
    intro hp
    obtain ⟨t, ht⟩ := List.isPrefixOf_iff_prefix.mp hp
    injection ht with h₁ _
    exact hc h₁.symm

theorem intercalate_single {α : Type} (sep x : List α) : List.intercalate sep [x] = x := by
  simp [List.intercalate]

theorem intercalate_cons_cons' {α : Type} (sep x y : List α) (l : List (List α)) :
    List.intercalate sep (x :: y :: l) = x ++ sep ++ List.intercalate sep (y :: l) := by
  simp [List.intercalate, List.intersperse_cons_cons]

theorem intercalate_length_ge (ch : Char) :
    ∀ (x : List Char) (l : List (List Char)),
      l.length ≤ (List.intercalate [ch] (x :: l)).length
  | _, [] => Nat.zero_le _
  | x, y :: l' => by
    rw [intercalate_cons_cons']
    have ih := intercalate_length_ge ch y l'
    simp only [List.length_append, List.length_cons, List.length_nil]
    simp only [List.length_cons] at ih
    omega

theorem splitOnCharsAux_intercalate {ch : Char} :
    ∀ (x : List Char) (l : List (List Char)) (fuel : Nat), ch ∉ x → (∀ y ∈ l, ch ∉ y) →
      l.length + 1 ≤ fuel →
      splitOnCharsAux [ch] fuel (List.intercalate [ch] (x :: l) ++ [ch]) = (x :: l) ++ [[]]
  | x, [], fuel, hx, _, hf => by
    obtain ⟨f, rfl⟩ : ∃ f, fuel = f + 1 := ⟨fuel - 1, by omega⟩
    rw [intercalate_single]
    show splitOnCharsAux [ch] (f + 1) (x ++ ch :: []) = [x, []]
    simp only [splitOnCharsAux]
    rw [findSplit_single hx]
    show x :: splitOnCharsAux [ch] f [] = [x, []]
    rw [splitOnCharsAux_nil_input]
  | x, y :: l', fuel, hx, hl, hf => by
    obtain ⟨f, rfl⟩ : ∃ f, fuel = f + 1 := ⟨fuel - 1, by omega⟩
    rw [intercalate_cons_cons']
    have harr : x ++ [ch] ++ List.intercalate [ch] (y :: l') ++ [ch] =
        x ++ ch :: (List.intercalate [ch] (y :: l') ++ [ch]) := by simp
    rw [harr]
    simp only [splitOnCharsAux]
    rw [findSplit_single hx]
    show x :: splitOnCharsAux [ch] f (List.intercalate [ch] (y :: l') ++ [ch]) =
      x :: y :: l' ++ [[]]
    rw [splitOnCharsAux_intercalate y l' f (hl y (by simp))
      (fun z hz => hl z (by simp [hz])) (by simp only [List.length_cons] at hf ⊢; omega)]
    rfl

theorem splitOnChars_intercalate {ch : Char} (x : List Char) (l : List (List Char))
    (hx : ch ∉ x) (hl : ∀ y ∈ l, ch ∉ y) :
    splitOnChars [ch] (List.intercalate [ch] (x :: l) ++ [ch]) = (x :: l) ++ [[]] := by
  unfold splitOnChars
  rw [if_neg (by simp)]
  apply splitOnCharsAux_intercalate x l _ hx hl
  have := intercalate_length_ge ch x l
  simp only [List.length_append]
  omega

/-- The general read-of-write equation: reading back a written index yields
the written names minus blank lines, as a set. -/
theorem get_venv_packages_write (pkgs : List String) (hne : pkgs ≠ [])
    (hpkgs : ∀ p ∈ pkgs, pyStrip p = p ∧ '\n' ∉ p.data) :
    get_venv_packages (create_requirements_index_content pkgs) =
      (pkgs.filter (fun p => p ≠ "")).toFinset := by
  obtain ⟨p₀, ps, rfl⟩ : ∃ p₀ ps, pkgs = p₀ :: ps := by
    cases pkgs with
    | nil => exact absurd rfl hne
    | cons p₀ ps => exact ⟨p₀, ps, rfl⟩
  have hx : '\n' ∉ p₀.data := (hpkgs p₀ (by simp)).2
  have hl : ∀ y ∈ ps.map String.data, '\n' ∉ y := by
    intro y hy
    obtain ⟨q, hq, rfl⟩ := List.mem_map.mp hy
    exact (hpkgs q (by simp [hq])).2
  have hsplit := splitOnChars_intercalate p₀.data (ps.map String.data) hx hl
  show (((splitOnChars ['\n']
      (List.intercalate ['\n'] (p₀.data :: ps.map String.data) ++ ['\n'])).map
        (fun l => (⟨pyStripL l⟩ : String))).filter (fun p => p ≠ "")).toFinset = _
  rw [hsplit]
  have hstrip : ∀ p ∈ p₀ :: ps, (⟨pyStripL p.data⟩ : String) = p :=
    fun p hp => (hpkgs p hp).1
  have hmap : ((p₀.data :: ps.map String.data) ++ [[]]).map
      (fun l => (⟨pyStripL l⟩ : String)) = (p₀ :: ps) ++ [""] := by
    have hid : (p₀.data :: ps.map String.data) = (p₀ :: ps).map String.data := rfl
    rw [hid, List.map_append, List.map_map]
    congr 1
    calc (p₀ :: ps).map ((fun l => (⟨pyStripL l⟩ : String)) ∘ String.data)
        = (p₀ :: ps).map id := List.map_congr_left (fun p hp => hstrip p hp)
      _ = p₀ :: ps := List.map_id _
  rw [hmap, List.filter_append]
  simp

/-! ## Theory of candidate selection -/

instance : IsRefl (Nat × String × Finset String) overlapLe :=
  ⟨fun a => Or.inr ⟨rfl, lexLe_refl a.2.1.data⟩⟩

instance : IsTrans (Nat × String × Finset String) overlapLe := ⟨by
  rintro a b c (h | ⟨e₁, s₁⟩) (h' | ⟨e₂, s₂⟩)
  · exact Or.inl (by omega)
  · exact Or.inl (by omega)
  · exact Or.inl (by omega)
  · exact Or.inr ⟨by omega, lexLe_trans s₁ s₂⟩⟩

instance : IsTotal (Nat × String × Finset String) overlapLe := ⟨by
  intro a b
  rcases Nat.lt_trichotomy a.1 b.1 with h | h | h
  · exact Or.inl (Or.inl h)
  · rcases lexLe_total a.2.1.data b.2.1.data with hs | hs
    · exact Or.inl (Or.inr ⟨h, hs⟩)
    · exact Or.inr (Or.inr ⟨h.symm, hs⟩)
  · exact Or.inr (Or.inl h)⟩

theorem overlapOf_inv {venv_path venv_name : String} {new_packages : Finset String}
    {e : CacheEntry} {t : Nat × String × Finset String}
    (h : overlapOf venv_path venv_name new_packages e = some t) :
    ∃ content, e.indexContent = some content ∧
      entryPath venv_name e ≠ venv_path ∧
      isEligible (get_venv_packages content) new_packages = true ∧
      t = ((new_packages ∩ get_venv_packages content).card, entryPath venv_name e,
        new_packages ∩ get_venv_packages content) := by
  unfold overlapOf at h
  cases hic : e.indexContent with
  | none => rw [hic] at h; cases h
  | some content =>
    rw [hic] at h
    have h' : (if entryPath venv_name e = venv_path then
          (none : Option (Nat × String × Finset String))
        else if isEligible (get_venv_packages content) new_packages = true then
          some ((new_packages ∩ get_venv_packages content).card, entryPath venv_name e,
            new_packages ∩ get_venv_packages content)
        else none) = some t := h
    by_cases hp : entryPath venv_name e = venv_path
    · rw [if_pos hp] at h'; cases h'
    · rw [if_neg hp] at h'
      by_cases helig : isEligible (get_venv_packages content) new_packages = true
      · rw [if_pos helig] at h'
        injection h' with h''
        exact ⟨content, rfl, hp, helig, h''.symm⟩
      · rw [if_neg helig] at h'; cases h'

theorem entryPath_inj {venv_name : String} {e₁ e₂ : CacheEntry}
    (h : entryPath venv_name e₁ = entryPath venv_name e₂) : e₁.sha1sum = e₂.sha1sum := by
  have hd := congrArg String.data h
  simp only [entryPath, String.data_append, List.append_assoc] at hd
  have h1 := List.append_cancel_left hd
  have h2 := List.append_cancel_left h1
  exact String.ext (List.append_cancel_right h2)

theorem overlapOf_proj {venv_path venv_name : String} {new_packages : Finset String}
    {e₁ e₂ : CacheEntry} (hsha : e₁.sha1sum = e₂.sha1sum)
    (hidx : e₁.indexContent = e₂.indexContent) :
    overlapOf venv_path venv_name new_packages e₁ =
      overlapOf venv_path venv_name new_packages e₂ := by
  unfold overlapOf entryPath
  rw [hsha, hidx]

theorem sorted_getLast?_max {α : Type} {r : α → α → Prop} (hrefl : ∀ a, r a a) :
    ∀ {l : List α} {x : α}, l.Sorted r → l.getLast? = some x → ∀ y ∈ l, r y x
  | [], x, _, h, _, hy => by cases h
  | [a], x, _, h, y, hy => by
    have hxa : a = x := by
      have : some a = some x := h
      injection this
    subst hxa
    have : y = a := by simpa using hy
    subst this
    exact hrefl y
  | a :: b :: t, x, hs, h, y, hy => by
    have h' : (b :: t).getLast? = some x := by
      rw [← List.getLast?_cons_cons]
      exact h
    rcases List.mem_cons.mp hy with rfl | hy'
    · have hx : x ∈ b :: t := by
        obtain ⟨ys, hys⟩ := List.getLast?_eq_some_iff.mp h'
        rw [hys]
        simp
      exact List.rel_of_sorted_cons hs x hx
    · exact sorted_getLast?_max hrefl hs.of_cons h' y hy'

theorem select_best_mem {venv_path venv_name : String} {new_packages : Finset String}
    {cache : List CacheEntry} {res : Nat × String × Finset String}
    (h : select_best venv_path venv_name new_packages cache = some res) :
    res ∈ eligibleOverlaps venv_path venv_name new_packages cache := by
  unfold select_best at h
  have hmem : res ∈ List.insertionSort overlapLe
      (eligibleOverlaps venv_path venv_name new_packages cache) := by
    obtain ⟨ys, hys⟩ := List.getLast?_eq_some_iff.mp h
    rw [hys]
    simp
  exact (List.perm_insertionSort overlapLe _).mem_iff.mp hmem

theorem select_best_max {venv_path venv_name : String} {new_packages : Finset String}
    {cache : List CacheEntry} {res : Nat × String × Finset String}
    (h : select_best venv_path venv_name new_packages cache = some res) :
    ∀ t ∈ eligibleOverlaps venv_path venv_name new_packages cache, overlapLe t res := by
  intro t ht
  unfold select_best at h
  have hsorted := List.sorted_insertionSort overlapLe
    (eligibleOverlaps venv_path venv_name new_packages cache)
  have htmem : t ∈ List.insertionSort overlapLe
      (eligibleOverlaps venv_path venv_name new_packages cache) :=
    (List.perm_insertionSort overlapLe _).mem_iff.mpr ht
  exact sorted_getLast?_max
    (fun a => show overlapLe a a from Or.inr ⟨rfl, lexLe_refl a.2.1.data⟩) hsorted h t htmem

theorem eligibleOverlaps_proj (venv_path venv_name : String) (new_packages : Finset String) :
    ∀ {c₁ c₂ : List CacheEntry},
      c₁.map (fun e => (e.sha1sum, e.indexContent)) =
        c₂.map (fun e => (e.sha1sum, e.indexContent)) →
      eligibleOverlaps venv_path venv_name new_packages c₁ =
        eligibleOverlaps venv_path venv_name new_packages c₂
  | [], [], _ => rfl
  | [], _ :: _, h => by cases h
  | _ :: _, [], h => by cases h
  | e₁ :: r₁, e₂ :: r₂, h => by
    rw [List.map_cons, List.map_cons] at h
    injection h with hhead htail
    have hsha : e₁.sha1sum = e₂.sha1sum := congrArg Prod.fst hhead
    have hidx : e₁.indexContent = e₂.indexContent := congrArg Prod.snd hhead
    unfold eligibleOverlaps
    rw [List.filterMap_cons, List.filterMap_cons,
      overlapOf_proj hsha hidx]
    have ih := eligibleOverlaps_proj venv_path venv_name new_packages htail
    unfold eligibleOverlaps at ih
    rw [ih]

theorem eligibleOverlaps_paths_nodup {venv_path venv_name : String}
    {new_packages : Finset String} :
    ∀ {cache : List CacheEntry}, (cache.map CacheEntry.sha1sum).Nodup →
      ((eligibleOverlaps venv_path venv_name new_packages cache).map
        (fun t => t.2.1)).Nodup
  | [], _ => by simp [eligibleOverlaps]
  | e :: rest, h => by
    rw [List.map_cons, List.nodup_cons] at h
    obtain ⟨hnotin, hrest⟩ := h
    unfold eligibleOverlaps
    rw [List.filterMap_cons]
    cases hoe : overlapOf venv_path venv_name new_packages e with
    | none => exact eligibleOverlaps_paths_nodup hrest
    | some t =>
      show ((t :: List.filterMap (overlapOf venv_path venv_name new_packages) rest).map
        (fun t => t.2.1)).Nodup
      rw [List.map_cons, List.nodup_cons]
      refine ⟨?_, eligibleOverlaps_paths_nodup hrest⟩
      intro hmem
      obtain ⟨t', ht'mem, ht'eq⟩ := List.mem_map.mp hmem
      obtain ⟨e', he'mem, he'⟩ := List.mem_filterMap.mp ht'mem
      obtain ⟨_, _, _, _, hteq⟩ := overlapOf_inv hoe
      obtain ⟨_, _, _, _, ht'eq'⟩ := overlapOf_inv he'
      have h1 : t.2.1 = entryPath venv_name e := by rw [hteq]
      have h2 : t'.2.1 = entryPath venv_name e' := by rw [ht'eq']
      have h3 : t'.2.1 = t.2.1 := ht'eq
      have hpatheq : entryPath venv_name e' = entryPath venv_name e := by
        rw [← h1, ← h2, h3]
      exact hnotin (List.mem_map.mpr ⟨e', he'mem, entryPath_inj hpatheq⟩)

theorem select_best_det (venv_path venv_name : String) (new_packages : Finset String)
    {cache₁ cache₂ : List CacheEntry} (hperm : cache₁.Perm cache₂)
    (hsha : (cache₁.map CacheEntry.sha1sum).Nodup) :
    select_best venv_path venv_name new_packages cache₁ =
      select_best venv_path venv_name new_packages cache₂ := by
  have hpermE : (eligibleOverlaps venv_path venv_name new_packages cache₁).Perm
      (eligibleOverlaps venv_path venv_name new_packages cache₂) :=
    hperm.filterMap _
  cases h₁ : select_best venv_path venv_name new_packages cache₁ with
  | none =>
    cases h₂ : select_best venv_path venv_name new_packages cache₂ with
    | none => rfl
    | some r₂ =>
      exfalso
      have hm₂ : r₂ ∈ eligibleOverlaps venv_path venv_name new_packages cache₁ :=
        hpermE.mem_iff.mpr (select_best_mem h₂)
      unfold select_best at h₁
      rw [List.getLast?_eq_none_iff] at h₁
      have hnil : eligibleOverlaps venv_path venv_name new_packages cache₁ = [] := by
        have hp := List.perm_insertionSort overlapLe
          (eligibleOverlaps venv_path venv_name new_packages cache₁)
        rw [h₁] at hp
        exact hp.symm.eq_nil
      rw [hnil] at hm₂
      exact absurd hm₂ (List.not_mem_nil r₂)
  | some r₁ =>
    cases h₂ : select_best venv_path venv_name new_packages cache₂ with
    | none =>
      exfalso
      have hm₁ : r₁ ∈ eligibleOverlaps venv_path venv_name new_packages cache₂ :=
        hpermE.mem_iff.mp (select_best_mem h₁)
      unfold select_best at h₂
      rw [List.getLast?_eq_none_iff] at h₂
      have hnil : eligibleOverlaps venv_path venv_name new_packages cache₂ = [] := by
        have hp := List.perm_insertionSort overlapLe
          (eligibleOverlaps venv_path venv_name new_packages cache₂)
        rw [h₂] at hp
        exact hp.symm.eq_nil
      rw [hnil] at hm₁
      exact absurd hm₁ (List.not_mem_nil r₁)
    | some r₂ =>
      have hm₁ := select_best_mem h₁
      have hm₂ := select_best_mem h₂
      have h12 : overlapLe r₁ r₂ := select_best_max h₂ r₁ (hpermE.mem_iff.mp hm₁)
      have h21 : overlapLe r₂ r₁ := select_best_max h₁ r₂ (hpermE.mem_iff.mpr hm₂)
      have hpath : r₁.2.1 = r₂.2.1 := by
        rcases h12 with h | ⟨e, s⟩ <;> rcases h21 with h' | ⟨e', s'⟩
        · omega
        · omega
        · omega
        · exact String.ext (lexLe_antisymm s s')
      rw [List.inj_on_of_nodup_map (eligibleOverlaps_paths_nodup hsha) hm₁
        (hpermE.mem_iff.mpr hm₂) hpath]

/-! ## Theory of the canonicalizer -/

theorem mapExcept_error_iff {α ε β : Type} (f : α → Except ε β) :
    ∀ (l : List α), (∃ e, mapExcept f l = .error e) ↔ ∃ a ∈ l, ∃ e, f a = .error e
  | [] => by
    constructor
    · rintro ⟨e, h⟩; cases h
    · rintro ⟨a, ha, _⟩; simp at ha
  | a :: l => by
    constructor
    · rintro ⟨e, h⟩
      unfold mapExcept at h
      cases hfa : f a with
      | error e' => exact ⟨a, by simp, e', hfa⟩
      | ok b =>
        rw [hfa] at h
        cases hml : mapExcept f l with
        | error e' =>
          obtain ⟨a', ha', he'⟩ := (mapExcept_error_iff f l).mp ⟨e', hml⟩
          exact ⟨a', by simp [ha'], he'⟩
        | ok bs => rw [hml] at h; cases h
    · rintro ⟨a', ha', e', he'⟩
      unfold mapExcept
      rcases List.mem_cons.mp ha' with rfl | hmem
      · exact ⟨e', by rw [he']⟩
      · cases hfa : f a with
        | error e₀ => exact ⟨e₀, rfl⟩
        | ok b =>
          obtain ⟨e'', h''⟩ := (mapExcept_error_iff f l).mpr ⟨a', hmem, e', he'⟩
          rw [h'']
          exact ⟨e'', rfl⟩

theorem splitOnCharsAux_length_pos (sep : List Char) (fuel : Nat) (s : List Char) :
    1 ≤ (splitOnCharsAux sep fuel s).length := by
  cases fuel with
  | zero => simp [splitOnCharsAux]
  | succ f =>
    simp only [splitOnCharsAux]
    cases findSplit sep s with
    | none => simp
    | some x => obtain ⟨pre, post⟩ := x; simp

theorem splitOnChars_two_le_iff {sub s : List Char} (hsub : sub ≠ []) :
    2 ≤ (splitOnChars sub s).length ↔ (findSplit sub s).isSome = true := by
  unfold splitOnChars
  rw [if_neg (by simp [hsub])]
  cases hx : findSplit sub s with
  | none =>
    show 2 ≤ (splitOnCharsAux sub (s.length + 1) s).length ↔ _
    simp only [splitOnCharsAux, hx]
    simp
  | some x =>
    obtain ⟨pre, post⟩ := x
    show 2 ≤ (splitOnCharsAux sub (s.length + 1) s).length ↔ _
    simp only [splitOnCharsAux, hx]
    constructor
    · intro _; rfl
    · intro _
      have := splitOnCharsAux_length_pos sub s.length post
      simp only [List.length_cons]
      omega

theorem pySplit_length (s sub : String) :
    (pySplit s sub).length = (splitOnChars sub.data s.data).length := by
  unfold pySplit
  rw [List.length_map]

theorem eggExtract_error_iff (p : String) :
    (∃ msg, eggExtract p = .error msg) ↔
      pyStartsWith p "git+https://" = true ∧ 3 ≤ (pySplit p "#egg=").length := by
  have hsubne : ("#egg=" : String).data ≠ [] := by decide
  unfold eggExtract
  by_cases hsw : pyStartsWith p "git+https://" = true
  · by_cases hc : pyContains p "#egg=" = true
    · rw [if_pos (by rw [hsw, hc]; rfl)]
      have h2 : 2 ≤ (pySplit p "#egg=").length := by
        rw [pySplit_length]
        exact (splitOnChars_two_le_iff hsubne).mpr hc
      rcases hsplit : pySplit p "#egg=" with _ | ⟨a, _ | ⟨b, _ | ⟨c, rest⟩⟩⟩
      · rw [hsplit] at h2
        simp at h2
      · rw [hsplit] at h2
        simp only [List.length_cons, List.length_nil] at h2
        omega
      · constructor
        · rintro ⟨msg, hmsg⟩
          cases hmsg
        · rintro ⟨-, h3⟩
          simp only [List.length_cons, List.length_nil] at h3
          omega
      · constructor
        · intro _
          refine ⟨hsw, ?_⟩
          simp only [List.length_cons]
          omega
        · intro _
          exact ⟨"Unexpected duplicate #egg in package " ++ p, rfl⟩
    · have hcf : pyContains p "#egg=" = false := by
        revert hc; cases pyContains p "#egg=" <;> simp
      rw [if_neg (by rw [hcf]; simp)]
      constructor
      · rintro ⟨msg, hmsg⟩; cases hmsg
      · rintro ⟨-, h3⟩
        have hocc : (findSplit ("#egg=" : String).data p.data).isSome = true := by
          rw [← splitOnChars_two_le_iff hsubne, ← pySplit_length]
          omega
        have hct : pyContains p "#egg=" = true := hocc
        rw [hcf] at hct
        cases hct
  · have hswf : pyStartsWith p "git+https://" = false := by
      revert hsw; cases pyStartsWith p "git+https://" <;> simp
    rw [if_neg (by rw [hswf]; simp)]
    constructor
    · rintro ⟨msg, hmsg⟩; cases hmsg
    · rintro ⟨h1, -⟩
      exact absurd h1 hsw

theorem processEntry_error_iff (p : String) :
    (∃ msg, processEntry p = .error msg) ↔
      pyStartsWith p "git+https://" = true ∧ 3 ≤ (pySplit p "#egg=").length := by
  unfold processEntry
  constructor
  · rintro ⟨msg, h⟩
    cases he : eggExtract p with
    | error m => exact (eggExtract_error_iff p).mp ⟨m, he⟩
    | ok q => rw [he] at h; cases h
  · intro hr
    obtain ⟨m, hm⟩ := (eggExtract_error_iff p).mpr hr
    exact ⟨m, by rw [hm]; rfl⟩

theorem truncOp_shortens (s op : String) : (truncOp s op).data <+: s.data := by
  unfold truncOp
  cases h : findSplit op.data s.data with
  | none => exact List.prefix_refl _
  | some x =>
    obtain ⟨pre, post⟩ := x
    have hs := findSplit_sound h
    exact ⟨op.data ++ post, by rw [← List.append_assoc, ← hs]⟩

theorem truncOp_no_occ (s op : String) :
    findSplit op.data (truncOp s op).data = none := by
  unfold truncOp
  cases h : findSplit op.data s.data with
  | none => exact h
  | some x =>
    obtain ⟨pre, post⟩ := x
    exact findSplit_none_before h

theorem foldl_truncOp_spec : ∀ (ops : List String) (s : String),
    ((ops.foldl truncOp s).data <+: s.data) ∧
    ∀ op ∈ ops, op.data ≠ [] → findSplit op.data (ops.foldl truncOp s).data = none
  | [], s => ⟨List.prefix_refl _, by simp⟩
  | op :: ops', s => by
    obtain ⟨hpre, hno⟩ := foldl_truncOp_spec ops' (truncOp s op)
    constructor
    · exact hpre.trans (truncOp_shortens s op)
    · intro op' hop' hne
      rcases List.mem_cons.mp hop' with rfl | hmem
      · cases hx : findSplit op'.data ((ops'.foldl truncOp (truncOp s op')).data) with
        | none => exact hx
        | some x =>
          exfalso
          have hsome : (findSplit op'.data
              ((ops'.foldl truncOp (truncOp s op')).data)).isSome = true := by
            rw [hx]; rfl
          have hlift := findSplit_mono_pre hne hpre hsome
          rw [truncOp_no_occ] at hlift
          cases hlift
      · exact hno op' hmem hne

theorem pyStrip_no_occ {op : List Char} (hne : op ≠ []) {s : String}
    (h : findSplit op s.data = none) : findSplit op (pyStrip s).data = none := by
  cases hx : findSplit op (pyStrip s).data with
  | none => rfl
  | some x =>
    exfalso
    have hsome : (findSplit op (pyStrip s).data).isSome = true := by rw [hx]; rfl
    obtain ⟨u, hu1, hu2⟩ := pyStripL_within s.data
    have h1 := findSplit_mono_pre hne hu1 hsome
    have h2 := findSplit_mono_suffix hu2 h1
    rw [h] at h2
    cases h2

theorem map_fixed_eq {f : Char → Char} :
    ∀ {mid op : List Char}, (∀ c, f c ∈ op → f c = c) → mid.map f = op → mid = op
  | [], [], _, _ => rfl
  | [], _ :: _, _, h => by cases h
  | _ :: _, [], _, h => by cases h
  | a :: mid', b :: op', hf, h => by
    injection h with h1 h2
    have hb : f a = a := hf a (by rw [h1]; simp)
    have hf' : ∀ c, f c ∈ op' → f c = c := fun c hc => hf c (by simp [hc])
    rw [← h1, hb, map_fixed_eq hf' h2]

theorem findSplit_map_none {f : Char → Char} {op s : List Char} (hne : op ≠ [])
    (hf : ∀ c, f c ∈ op → f c = c)
    (h : findSplit op s = none) : findSplit op (s.map f) = none := by
  cases hx : findSplit op (s.map f) with
  | none => rfl
  | some x =>
    exfalso
    obtain ⟨pre, post, hdec⟩ := (findSplit_isSome_iff_decomp hne).mp (by rw [hx]; rfl)
    have hmid : ((s.drop pre.length).take op.length).map f = op := by
      rw [List.map_take, List.map_drop, hdec, List.append_assoc, List.drop_left,
        List.take_left]
    have hmid_eq : (s.drop pre.length).take op.length = op := map_fixed_eq hf hmid
    have hs : s = s.take pre.length ++ (op ++ (s.drop pre.length).drop op.length) := by
      have e1 : s.drop pre.length = op ++ (s.drop pre.length).drop op.length := by
        conv_lhs => rw [← List.take_append_drop op.length (s.drop pre.length)]
        rw [hmid_eq]
      rw [← e1, List.take_append_drop]
    have hocc : (findSplit op s).isSome = true :=
      (findSplit_isSome_iff_decomp hne).mpr
        ⟨s.take pre.length, (s.drop pre.length).drop op.length, by
          rw [List.append_assoc]; exact hs⟩
    rw [h] at hocc
    cases hocc

theorem asciiLower_toNat (c : Char) :
    (asciiLower c).toNat =
      if 65 ≤ c.toNat ∧ c.toNat ≤ 90 then c.toNat + 32 else c.toNat := by
  unfold asciiLower
  by_cases h : 65 ≤ c.toNat ∧ c.toNat ≤ 90
  · rw [if_pos h, if_pos h]
    have hv : (c.toNat + 32).isValidChar := Or.inl (by omega)
    unfold Char.ofNat
    rw [dif_pos hv]
    rfl
  · rw [if_neg h, if_neg h]

theorem asciiLower_fixes_op_chars {op : List Char}
    (hop : ∀ x ∈ op, x.toNat < 97 ∨ 122 < x.toNat) :
    ∀ c, asciiLower c ∈ op → asciiLower c = c := by
  intro c hc
  have hx := hop _ hc
  by_cases h : 65 ≤ c.toNat ∧ c.toNat ≤ 90
  · exfalso
    have ht := asciiLower_toNat c
    rw [if_pos h] at ht
    omega
  · unfold asciiLower
    rw [if_neg h]

theorem operators_facts : ∀ op ∈ operators,
    op.data ≠ [] ∧ ∀ x ∈ op.data, x.toNat < 97 ∨ 122 < x.toNat := by decide

theorem pyLower_no_occ {op : List Char} (hne : op ≠ [])
    (hop : ∀ x ∈ op, x.toNat < 97 ∨ 122 < x.toNat) {s : String}
    (h : findSplit op s.data = none) : findSplit op (pyLower s).data = none :=
  findSplit_map_none hne (asciiLower_fixes_op_chars hop) h

end VenvResolver

namespace VenvResolver

/-! ## Claim theorems on candidate selection -/

/-- **C1.** A cache candidate with package set `old` is treated as eligible
against the target requirement set `new` iff `old ⊆ new` (line 198's
`not (old_packages - new_packages)` test), and `try_to_copy_venv`'s selection
never returns a candidate whose package index denotes a set containing a
package absent from the requirement set. -/
theorem C1_eligibility_subset_safety (venv_path venv_name : String)
    (new_packages : Finset String) (cache : List CacheEntry)
    (res : Nat × String × Finset String)
    (h : select_best venv_path venv_name new_packages cache = some res) :
    (∀ old new : Finset String, isEligible old new = true ↔ old ⊆ new) ∧
    ∃ e ∈ cache, entryPath venv_name e = res.2.1 ∧
      ∃ content, e.indexContent = some content ∧
        get_venv_packages content ⊆ new_packages := by
  constructor
  · intro old new
    constructor
    · intro hd
      exact Finset.sdiff_eq_empty_iff_subset.mp (of_decide_eq_true hd)
    · intro hsub
      exact decide_eq_true (Finset.sdiff_eq_empty_iff_subset.mpr hsub)
  · have hmem := select_best_mem h
    unfold eligibleOverlaps at hmem
    obtain ⟨e, hemem, hoe⟩ := List.mem_filterMap.mp hmem
    obtain ⟨content, hic, _, helig, hteq⟩ := overlapOf_inv hoe
    refine ⟨e, hemem, ?_, content, hic, ?_⟩
    · rw [hteq]
    · exact Finset.sdiff_eq_empty_iff_subset.mp (of_decide_eq_true helig)

/-- Closed instance of `C1_eligibility_subset_safety` on the concrete cache
`wCache`: the selected candidate is `ccc` and its packages are all wanted. -/
theorem C1_eligibility_subset_safety_witness :
    (∀ old new : Finset String, isEligible old new = true ↔ old ⊆ new) ∧
    ∃ e ∈ wCache, entryPath "venv" e = "/srv/zulip-venv-cache/ccc/venv" ∧
      ∃ content, e.indexContent = some content ∧
        get_venv_packages content ⊆ wNew :=
  C1_eligibility_subset_safety wVenvPath "venv" wNew wCache
    (5, "/srv/zulip-venv-cache/ccc/venv", {"a", "b", "c", "d", "e"}) (by decide)

/-- **C2.** Among the eligible candidates the selection returns the tuple
maximal in overlap size, with ties broken by the lexicographically greatest
candidate path, and the selected candidate is the same for any two
enumeration orders of the same cache contents (the hash-named subdirectories
of one cache listing are pairwise distinct). -/
theorem C2_select_best_max_deterministic (venv_path venv_name : String)
    (new_packages : Finset String) (cache₁ cache₂ : List CacheEntry)
    (hperm : cache₁.Perm cache₂)
    (hsha : (cache₁.map CacheEntry.sha1sum).Nodup) :
    select_best venv_path venv_name new_packages cache₁ =
      select_best venv_path venv_name new_packages cache₂ ∧
    ∀ res, select_best venv_path venv_name new_packages cache₁ = some res →
      ∀ t ∈ eligibleOverlaps venv_path venv_name new_packages cache₁,
        t.1 < res.1 ∨ (t.1 = res.1 ∧ strLe t.2.1 res.2.1) := by
  constructor
  · exact select_best_det venv_path venv_name new_packages hperm hsha
  · intro res h t ht
    exact select_best_max h t ht

/-- Closed instance of `C2_select_best_max_deterministic`: scanning `wCache`
in reversed order selects the same winner, and the winner dominates the
eligible overlaps `{3, 5, 5}`. -/
theorem C2_select_best_max_deterministic_witness :
    (select_best wVenvPath "venv" wNew wCache =
      select_best wVenvPath "venv" wNew wCache.reverse) ∧
    ∀ res, select_best wVenvPath "venv" wNew wCache = some res →
      ∀ t ∈ eligibleOverlaps wVenvPath "venv" wNew wCache,
        t.1 < res.1 ∨ (t.1 = res.1 ∧ strLe t.2.1 res.2.1) :=
  C2_select_best_max_deterministic wVenvPath "venv" wNew wCache wCache.reverse
    (by decide) (by decide)

/-- **C10.** Candidate selection reads only each cache entry's name and
`package_index` contents: two cache states that agree on those — and may
differ arbitrarily in `success-stamp` presence and in log contents — produce
the same selected candidate, so an environment whose install step never
succeeded (no stamp) but whose index was written is selected all the same. -/
theorem C10_selection_ignores_success_stamp (venv_path venv_name : String)
    (new_packages : Finset String) (cache₁ cache₂ : List CacheEntry)
    (h : cache₁.map (fun e => (e.sha1sum, e.indexContent)) =
      cache₂.map (fun e => (e.sha1sum, e.indexContent))) :
    select_best venv_path venv_name new_packages cache₁ =
      select_best venv_path venv_name new_packages cache₂ := by
  unfold select_best
  rw [eligibleOverlaps_proj venv_path venv_name new_packages h]

/-- Closed instance of `C10_selection_ignores_success_stamp`: flipping every
success stamp (and all the log files) leaves the selection unchanged, and the
winner `ccc` is a candidate carrying no success stamp in `wCache`. -/
theorem C10_selection_ignores_success_stamp_witness :
    (select_best wVenvPath "venv" wNew wCache =
      select_best wVenvPath "venv" wNew wCacheStamped) ∧
    select_best wVenvPath "venv" wNew wCache =
      some (5, "/srv/zulip-venv-cache/ccc/venv", {"a", "b", "c", "d", "e"}) :=
  ⟨C10_selection_ignores_success_stamp wVenvPath "venv" wNew wCache wCacheStamped
    (by decide), by decide⟩

/-! ## Claim theorems on the canonicalizer -/

/-- Counterexample to **C3** as stated: on the entry `a!==1` the code's loop
applies `==` before `!=` and yields `a!`, whereas truncation at the first
occurrence of any version operator (the `!=` at index 1) would yield `a`. -/
theorem C3_counterexample :
    processEntry "a!==1" = .ok (some "a!") ∧
    specCanonicalizeEntry "a!==1" = "a" ∧
    ("a!" : String) ≠ "a" := by decide

/-- **C3 (amended).** For every requirements entry, canonicalization extracts
the text following `#egg=` for `git+https://` entries, then applies the
version operators `~=`, `==`, `!=`, `<`, `>` in that fixed order, each
truncating the current value at that operator's first occurrence — so the
canonical name contains no version-operator substring — and finally trims
whitespace and lowercases; `git+https://example.com/pkg.git#egg=foo==1.0`
canonicalizes to `foo` and `Foo>=2.0` canonicalizes to `foo`. -/
theorem C3_amended_sequential_truncation :
    (∀ p r, processEntry p = .ok (some r) →
      ∃ q, eggExtract p = .ok q ∧ r = pyLower (pyStrip (stripOperators q)) ∧
        ∀ op ∈ operators, pyContains r op = false) ∧
    processEntry "git+https://example.com/pkg.git#egg=foo==1.0" = .ok (some "foo") ∧
    processEntry "Foo>=2.0" = .ok (some "foo") := by
  refine ⟨?_, by decide, by decide⟩
  intro p r h
  unfold processEntry at h
  cases he : eggExtract p with
  | error m => rw [he] at h; cases h
  | ok q =>
    rw [he] at h
    have hf : finishEntry q = some r := by
      have h' : (Except.ok (finishEntry q) : Except String (Option String)) = .ok (some r) := h
      injection h'
    have hr : r = pyLower (pyStrip (stripOperators q)) := by
      unfold finishEntry at hf
      by_cases hq : pyStrip (stripOperators q) = ""
      · rw [if_pos hq] at hf; cases hf
      · rw [if_neg hq] at hf
        injection hf with hf'
        exact hf'.symm
    refine ⟨q, rfl, hr, ?_⟩
    intro op hop
    obtain ⟨hne, hbound⟩ := operators_facts op hop
    have h1 : findSplit op.data (stripOperators q).data = none :=
      (foldl_truncOp_spec operators q).2 op hop hne
    have h2 : findSplit op.data (pyStrip (stripOperators q)).data = none :=
      pyStrip_no_occ hne h1
    have h3 : findSplit op.data (pyLower (pyStrip (stripOperators q))).data = none :=
      pyLower_no_occ hne hbound h2
    show (findSplit op.data r.data).isSome = false
    rw [hr, h3]
    rfl

/-- Closed instance of `C3_amended_sequential_truncation` at `Foo>=2.0`. -/
theorem C3_amended_sequential_truncation_witness :
    ∃ q, eggExtract "Foo>=2.0" = .ok q ∧
      ("foo" : String) = pyLower (pyStrip (stripOperators q)) ∧
      ∀ op ∈ operators, pyContains "foo" op = false :=
  C3_amended_sequential_truncation.1 "Foo>=2.0" "foo" (by decide)

/-- **C9.** `get_package_names` fails (the duplicate-`#egg=` exception of
line 133) iff some entry starts with `git+https://` and contains more than
one `#egg=` fragment (its `#egg=`-split has at least 3 parts, i.e. at least
2 occurrences); an entry whose split has exactly 2 parts (exactly one
fragment) is canonicalized without error. -/
theorem C9_duplicate_egg_error_iff (entries : List String) :
    ((∃ msg, get_package_names entries = .error msg) ↔
      ∃ p ∈ entries, pyStartsWith p "git+https://" = true ∧
        3 ≤ (pySplit p "#egg=").length) ∧
    ∀ p ∈ entries, pyStartsWith p "git+https://" = true →
      (pySplit p "#egg=").length = 2 → ∃ r, processEntry p = .ok r := by
  constructor
  · constructor
    · rintro ⟨msg, h⟩
      unfold get_package_names at h
      cases hm : mapExcept processEntry entries with
      | error e =>
        obtain ⟨a, ha, e', he'⟩ := (mapExcept_error_iff processEntry entries).mp ⟨e, hm⟩
        exact ⟨a, ha, (processEntry_error_iff a).mp ⟨e', he'⟩⟩
      | ok opts => rw [hm] at h; cases h
    · rintro ⟨p, hp, hcond⟩
      obtain ⟨m, hm⟩ := (processEntry_error_iff p).mpr hcond
      obtain ⟨e, he⟩ := (mapExcept_error_iff processEntry entries).mpr ⟨p, hp, m, hm⟩
      refine ⟨e, ?_⟩
      unfold get_package_names
      rw [he]
  · intro p _ _ hlen
    cases hpe : processEntry p with
    | ok r => exact ⟨r, rfl⟩
    | error m =>
      have hchar := ((processEntry_error_iff p).mp ⟨m, hpe⟩).2
      omega

/-- Closed instance of `C9_duplicate_egg_error_iff` on a manifest with a
duplicate-egg entry. -/
theorem C9_duplicate_egg_error_iff_witness :
    ((∃ msg, get_package_names ["requests", "git+https://x#egg=a#egg=b"] = .error msg) ↔
      ∃ p ∈ ["requests", "git+https://x#egg=a#egg=b"],
        pyStartsWith p "git+https://" = true ∧ 3 ≤ (pySplit p "#egg=").length) ∧
    ∀ p ∈ ["requests", "git+https://x#egg=a#egg=b"],
      pyStartsWith p "git+https://" = true →
      (pySplit p "#egg=").length = 2 → ∃ r, processEntry p = .ok r :=
  C9_duplicate_egg_error_iff ["requests", "git+https://x#egg=a#egg=b"]

/-- Counterexample to **C7** as stated: two manifest entries canonicalizing
to the same name make `get_package_names` return the name twice — the list
it returns is not deduplicated. -/
theorem C7_counterexample :
    get_package_names ["Foo", "foo==1.0"] = .ok ["foo", "foo"] ∧
    ¬ (["foo", "foo"] : List String).Nodup := by decide

/-- **C7 (amended).** `get_package_names` returns a sorted list that may
repeat a canonical name (once per manifest entry canonicalizing to it); the
deduplicated set semantics the spec describes arise at the consumers, which
convert the list to a set (`set(...)` in `do_setup_virtualenv`,
`pkgs.toFinset` here), where every name occurs at most once. -/
theorem C7_amended_sorted_consumers_dedup (entries : List String)
    (pkgs : List String) (h : get_package_names entries = .ok pkgs) :
    pkgs.Sorted strLe ∧ ∀ x, pkgs.toFinset.toList.count x ≤ 1 := by
  constructor
  · unfold get_package_names at h
    cases hm : mapExcept processEntry entries with
    | error e => rw [hm] at h; cases h
    | ok opts =>
      rw [hm] at h
      injection h with h'
      rw [← h']
      exact List.sorted_insertionSort strLe _
  · intro x
    exact List.nodup_iff_count_le_one.mp (Finset.nodup_toList _) x

/-- Closed instance of `C7_amended_sorted_consumers_dedup` on the
duplicate-producing manifest. -/
theorem C7_amended_sorted_consumers_dedup_witness :
    (["foo", "foo"] : List String).Sorted strLe ∧
    ∀ x, (["foo", "foo"] : List String).toFinset.toList.count x ≤ 1 :=
  C7_amended_sorted_consumers_dedup ["Foo", "foo==1.0"] ["foo", "foo"] (by decide)

/-! ## Claim theorem on the package index round trip -/

/-- **C4.** For every non-empty list of canonical package names (non-blank,
whitespace-trimmed, newline-free strings), writing the package index file and
reading it back yields exactly the set of those names; the reader treats the
file as a set — its result is unchanged under reordering of the written
lines and ignores blank lines. -/
theorem C4_index_round_trip (pkgs : List String) (hne : pkgs ≠ [])
    (hp : ∀ p ∈ pkgs, p ≠ "" ∧ pyStrip p = p ∧ '\n' ∉ p.data) :
    get_venv_packages (create_requirements_index_content pkgs) = pkgs.toFinset ∧
    (∀ pkgs' : List String, pkgs'.Perm pkgs →
      get_venv_packages (create_requirements_index_content pkgs') =
        get_venv_packages (create_requirements_index_content pkgs)) ∧
    get_venv_packages (create_requirements_index_content (pkgs ++ [""])) =
      pkgs.toFinset := by
  have hfilter : ∀ (l : List String), (∀ p ∈ l, p ≠ "") →
      l.filter (fun p => p ≠ "") = l := by
    intro l hl
    exact List.filter_eq_self.mpr (fun p hp' => decide_eq_true (hl p hp'))
  have hmain : get_venv_packages (create_requirements_index_content pkgs) =
      pkgs.toFinset := by
    rw [get_venv_packages_write pkgs hne (fun p hp' => ⟨(hp p hp').2.1, (hp p hp').2.2⟩)]
    rw [hfilter pkgs (fun p hp' => (hp p hp').1)]
  refine ⟨hmain, ?_, ?_⟩
  · intro pkgs' hperm
    have hne' : pkgs' ≠ [] := by
      intro h0
      subst h0
      exact hne hperm.symm.eq_nil
    have hp' : ∀ p ∈ pkgs', p ≠ "" ∧ pyStrip p = p ∧ '\n' ∉ p.data :=
      fun p hmem => hp p (hperm.mem_iff.mp hmem)
    rw [get_venv_packages_write pkgs' hne'
      (fun p hp'' => ⟨(hp' p hp'').2.1, (hp' p hp'').2.2⟩)]
    rw [hfilter pkgs' (fun p hp'' => (hp' p hp'').1), hmain]
    apply Finset.ext
    intro x
    rw [List.mem_toFinset, List.mem_toFinset]
    exact hperm.mem_iff
  · have h2 : ∀ p ∈ pkgs ++ [""], pyStrip p = p ∧ '\n' ∉ p.data := by
      intro p hmem
      rcases List.mem_append.mp hmem with hm | hm
      · exact ⟨(hp p hm).2.1, (hp p hm).2.2⟩
      · have hpe : p = "" := by simpa using hm
        subst hpe
        exact ⟨rfl, by simp⟩
    rw [get_venv_packages_write (pkgs ++ [""]) (by simp) h2]
    rw [List.filter_append]
    rw [show (([""] : List String).filter (fun p => p ≠ "")) = [] by rfl]
    rw [List.append_nil]
    rw [hfilter pkgs (fun p hp' => (hp p hp').1)]

/-- Closed instance of `C4_index_round_trip` on a two-name set. -/
theorem C4_index_round_trip_witness :
    get_venv_packages (create_requirements_index_content ["alpha", "beta"]) =
      (["alpha", "beta"] : List String).toFinset ∧
    (∀ pkgs' : List String, pkgs'.Perm ["alpha", "beta"] →
      get_venv_packages (create_requirements_index_content pkgs') =
        get_venv_packages (create_requirements_index_content ["alpha", "beta"])) ∧
    get_venv_packages (create_requirements_index_content (["alpha", "beta"] ++ [""])) =
      (["alpha", "beta"] : List String).toFinset :=
  C4_index_round_trip ["alpha", "beta"] (by decide) (by decide)

/-! ## Claim theorems on the provenance log and the orchestrator -/

theorem copy_parent_log_self (x : Option String) : copy_parent_log x x = x := by
  cases x <;> rfl

theorem appendLogEntries_eq :
    ∀ (es : List (String × String × Finset String × Finset String)) (init : String),
      appendLogEntries init es = init ++ concatBlocks es
  | [], init => (String.append_empty init).symm
  | e :: es, init => by
    show appendLogEntries (init ++ logBlock e.1 e.2.1 e.2.2.1 e.2.2.2) es = _
    rw [appendLogEntries_eq es (init ++ logBlock e.1 e.2.1 e.2.2.1 e.2.2.2)]
    show _ = init ++ (logBlock e.1 e.2.1 e.2.2.1 e.2.2.2 ++ concatBlocks es)
    rw [String.append_assoc]

theorem concatBlocks_append :
    ∀ (l₁ l₂ : List (String × String × Finset String × Finset String)),
      concatBlocks (l₁ ++ l₂) = concatBlocks l₁ ++ concatBlocks l₂
  | [], l₂ => (String.empty_append _).symm
  | e :: l₁, l₂ => by
    show logBlock e.1 e.2.1 e.2.2.1 e.2.2.2 ++ concatBlocks (l₁ ++ l₂) = _
    rw [concatBlocks_append l₁ l₂, ← String.append_assoc]
    rfl

/-- **C6.** The provenance log destroys nothing: `N` successive
`create_log_entry` appends produce the initial contents followed by the `N`
blocks in call order, every earlier state being a prefix of every later one;
and on the clone path `try_to_copy_venv` first copies the parent's whole log
to the child's log path and only then appends the new lineage block, so the
child's log after cloning is the parent's log (its pre-existing history, as
replicated by the clone) with the new block appended — never an
overwrite that loses a block. -/
theorem C6_provenance_log_append_only (init : String)
    (es : List (String × String × Finset String × Finset String))
    (venv_path venv_name : String) (new_packages : Finset String)
    (cache : List CacheEntry) (src : String) (copied : Finset String) (log : String)
    (hclone : try_to_copy_venv venv_path venv_name new_packages cache true =
      some (src, copied, log)) :
    (appendLogEntries init es = init ++ concatBlocks es ∧
      ∀ n, appendLogEntries init es =
        appendLogEntries init (es.take n) ++ concatBlocks (es.drop n)) ∧
    log = (logAtPath venv_name cache src).getD "" ++
      logBlock (get_logfile_name venv_path) src copied (new_packages \ copied) := by
  refine ⟨⟨appendLogEntries_eq es init, ?_⟩, ?_⟩
  · intro n
    rw [appendLogEntries_eq es init, appendLogEntries_eq (es.take n) init,
      String.append_assoc, ← concatBlocks_append, List.take_append_drop]
  · unfold try_to_copy_venv at hclone
    cases hsel : select_best venv_path venv_name new_packages cache with
    | none => rw [hsel] at hclone; cases hclone
    | some r =>
      obtain ⟨n, src', ov⟩ := r
      rw [hsel] at hclone
      simp only [Option.some.injEq, Prod.mk.injEq, if_pos] at hclone
      obtain ⟨h1, h2, h3⟩ := hclone
      subst h1
      subst h2
      rw [← h3, copy_parent_log_self]
      rfl

/-- Closed instance of `C6_provenance_log_append_only`: two appends over a
seeded log, and the concrete clone of `ccc` out of `wCache`. -/
theorem C6_provenance_log_append_only_witness :
    ((appendLogEntries "seed\n" wEntriesLog = "seed\n" ++ concatBlocks wEntriesLog) ∧
      ∀ n, appendLogEntries "seed\n" wEntriesLog =
        appendLogEntries "seed\n" (wEntriesLog.take n) ++ concatBlocks (wEntriesLog.drop n)) ∧
    wCloneLog = (logAtPath "venv" wCache "/srv/zulip-venv-cache/ccc/venv").getD "" ++
      logBlock (get_logfile_name wVenvPath) "/srv/zulip-venv-cache/ccc/venv"
        {"a", "b", "c", "d", "e"} (wNew \ {"a", "b", "c", "d", "e"}) :=
  C6_provenance_log_append_only "seed\n" wEntriesLog wVenvPath "venv" wNew wCache
    "/srv/zulip-venv-cache/ccc/venv" {"a", "b", "c", "d", "e"} wCloneLog (by decide)

/-- **C5.** The installer is retried exactly once: with no pre-existing
success stamp, a run whose install fails once and then succeeds completes
with the stamp written (two install attempts); a run whose install fails
twice aborts with `installFailed 2` — exactly two attempts, never a third —
and no stamp is written; a run whose first install succeeds performs a
single attempt. -/
theorem C5_install_retried_exactly_once (venv_path : String) (entries : List String)
    (cache : List CacheEntry) (cloneOk : Bool) (install : Nat → Bool)
    (pkgs : List String) (hok : get_package_names entries = .ok pkgs) :
    (install 0 = false → install 1 = true →
      setup_virtualenv venv_path entries cache false cloneOk install =
        { performed := some { do_setup_core venv_path pkgs cache cloneOk with
            installAttempts := 2 },
          stampAfter := true, fatal := none }) ∧
    (install 0 = false → install 1 = false →
      setup_virtualenv venv_path entries cache false cloneOk install =
        { performed := none, stampAfter := false,
          fatal := some (.installFailed 2) }) ∧
    (install 0 = true →
      setup_virtualenv venv_path entries cache false cloneOk install =
        { performed := some { do_setup_core venv_path pkgs cache cloneOk with
            installAttempts := 1 },
          stampAfter := true, fatal := none }) := by
  have heq : do_setup_virtualenv venv_path entries cache cloneOk install =
      (if install 0 = true then
        .ok { do_setup_core venv_path pkgs cache cloneOk with installAttempts := 1 }
      else if install 1 = true then
        .ok { do_setup_core venv_path pkgs cache cloneOk with installAttempts := 2 }
      else .error (.installFailed 2)) := by
    unfold do_setup_virtualenv
    rw [hok]
  refine ⟨?_, ?_, ?_⟩
  · intro h0 h1
    unfold setup_virtualenv
    rw [if_neg (by decide), heq, if_neg (by rw [h0]; decide), if_pos h1]
  · intro h0 h1
    unfold setup_virtualenv
    rw [if_neg (by decide), heq, if_neg (by rw [h0]; decide), if_neg (by rw [h1]; decide)]
  · intro h0
    unfold setup_virtualenv
    rw [if_neg (by decide), heq, if_pos h0]

/-- Closed instance of `C5_install_retried_exactly_once`: an installer that
fails on attempt 0 and succeeds on attempt 1 completes with the stamp; one
that always fails aborts after 2 attempts with no stamp. -/
theorem C5_install_retried_exactly_once_witness :
    (setup_virtualenv wVenvPath ["Foo"] [] false true (fun n => n == 1) =
      { performed := some { do_setup_core wVenvPath ["foo"] [] true with
          installAttempts := 2 },
        stampAfter := true, fatal := none }) ∧
    setup_virtualenv wVenvPath ["Foo"] [] false true (fun _ => false) =
      { performed := none, stampAfter := false,
        fatal := some (.installFailed 2) } :=
  ⟨(C5_install_retried_exactly_once wVenvPath ["Foo"] [] true (fun n => n == 1)
      ["foo"] (by decide)).1 rfl rfl,
   (C5_install_retried_exactly_once wVenvPath ["Foo"] [] true (fun _ => false)
      ["foo"] (by decide)).2.1 rfl rfl⟩

/-- **C8.** When an eligible candidate was selected but the external clone
tool fails, the failure is non-fatal: `try_to_copy_venv` returns `False`, and
`do_setup_virtualenv` falls through to creating a fresh empty environment
and still completes. -/
theorem C8_clone_failure_non_fatal (venv_path : String) (entries : List String)
    (cache : List CacheEntry) (install : Nat → Bool) (pkgs : List String)
    (cand : Nat × String × Finset String)
    (hok : get_package_names entries = .ok pkgs)
    (hsel : select_best venv_path (pyBasename venv_path) pkgs.toFinset cache = some cand)
    (h0 : install 0 = true) :
    try_to_copy_venv venv_path (pyBasename venv_path) pkgs.toFinset cache false = none ∧
    ∃ o, do_setup_virtualenv venv_path entries cache false install = .ok o ∧
      o.freshCreated = true ∧ o.copiedFrom = none := by
  have hclone : try_to_copy_venv venv_path (pyBasename venv_path) pkgs.toFinset
      cache false = none := by
    unfold try_to_copy_venv
    rw [hsel]
    obtain ⟨n, src, ov⟩ := cand
    rfl
  have hcore : do_setup_core venv_path pkgs cache false =
      { copiedFrom := none, copiedPackages := ∅, freshCreated := true,
        logContent := create_log_entry "" (get_logfile_name venv_path) "" ∅ pkgs.toFinset,
        indexContent := create_requirements_index_content pkgs, installAttempts := 0 } := by
    unfold do_setup_core
    rw [hclone]
  refine ⟨hclone, { do_setup_core venv_path pkgs cache false with installAttempts := 1 },
    ?_, ?_, ?_⟩
  · have heq : do_setup_virtualenv venv_path entries cache false install =
        (if install 0 = true then
          .ok { do_setup_core venv_path pkgs cache false with installAttempts := 1 }
        else if install 1 = true then
          .ok { do_setup_core venv_path pkgs cache false with installAttempts := 2 }
        else .error (.installFailed 2)) := by
      unfold do_setup_virtualenv
      rw [hok]
    rw [heq, if_pos h0]
  · rw [hcore]
  · rw [hcore]

/-- Closed instance of `C8_clone_failure_non_fatal` on `wCache` with a
failing clone tool: the run still completes, freshly created. -/
theorem C8_clone_failure_non_fatal_witness :
    try_to_copy_venv wVenvPath (pyBasename wVenvPath)
      (["a", "b", "c", "d", "e"] : List String).toFinset wCache false = none ∧
    ∃ o, do_setup_virtualenv wVenvPath ["A", "B", "C", "D", "E"] wCache false
        (fun _ => true) = .ok o ∧ o.freshCreated = true ∧ o.copiedFrom = none :=
  C8_clone_failure_non_fatal wVenvPath ["A", "B", "C", "D", "E"] wCache
    (fun _ => true) ["a", "b", "c", "d", "e"]
    (5, "/srv/zulip-venv-cache/ccc/venv", {"a", "b", "c", "d", "e"})
    (by decide) (by decide) rfl

end VenvResolver
